import Mathlib

/-!
Verification development for the DockerCleanUp bot (`DockerCleanUpBot.py`).

The script is a linear pipeline: login to Azure, login to the container
registry, list repositories, list the manifests of each repository (a JSON
array that the script re-assembles from flattened text), classify every
manifest by age, and - unless a dry run was requested - delete every
eligible image.  External commands are modelled by an environment `Env`
recording the result of each invocation; the wall clock and the pandas
timestamp parser are part of that environment.  The pipeline itself is a
pure function from the environment to an event trace plus an outcome.
-/

namespace DockerCleanUp

/-! ## Text utilities modelling the Python string operations -/

/-- Python `s.split("\n")` on a list of characters: splits on every newline,
keeping empty segments (so the result is always non-empty). -/
def splitNl : List Char → List (List Char)
  | [] => [[]]
  | c :: rest =>
    if c = '\n' then [] :: splitNl rest
    else
      match splitNl rest with
      | [] => [[c]]
      | p :: ps => (c :: p) :: ps

/-- Python `s.split("},")`: splits on the two-character separator,
taking leftmost non-overlapping occurrences. -/
def splitBC : List Char → List (List Char)
  | [] => [[]]
  | [c] => [[c]]
  | c1 :: c2 :: rest =>
    if c1 = '}' ∧ c2 = ',' then [] :: splitBC rest
    else
      match splitBC (c2 :: rest) with
      | [] => [[c1]]
      | p :: ps => (c1 :: p) :: ps

/-- Whether the separator `"},"` occurs as a substring. -/
def hasBC : List Char → Bool
  | [] => false
  | [_] => false
  | c1 :: c2 :: rest => (c1 == '}' && c2 == ',') || hasBC (c2 :: rest)

/-- Appending one character to the last segment of a segment list; used to
describe how `splitNl` reacts to one more non-newline character. -/
def appendLast (c : Char) : List (List Char) → List (List Char)
  | [] => [[c]]
  | [p] => [p ++ [c]]
  | p :: ps => p :: appendLast c ps

/-- `output.replace("\n", "").replace(" ", "")` (line 124):
removes every newline and every space. -/
def stripWsNl (s : List Char) : List Char :=
  s.filter fun c => !(c == '\n' || c == ' ')

/-- Python `s[1:-1]`. -/
def drop1dropLast (s : List Char) : List Char := (s.drop 1).dropLast

/-- Line 101, `output.split("\n")[:-1]`: the repository names are the
newline-split segments with the final segment discarded. -/
def parseReposL (s : List Char) : List (List Char) := (splitNl s).dropLast

/-- String-level wrapper of `parseReposL`, as used by the pipeline. -/
def parseRepos (s : String) : List String :=
  (parseReposL s.data).map fun l => String.mk l

/-- Line 124: `output.replace("\n", "").replace(" ", "")[1:-1].split("},")`. -/
def manifestOutputs (s : String) : List String :=
  (splitBC (drop1dropLast (stripWsNl s.data))).map fun l => String.mk l

/-- Lines 132-134: re-append `"}"` to every piece except the last
(`if j < (len(outputs) - 1): output += "}"`). -/
def fixPieces : List (List Char) → List (List Char)
  | [] => []
  | [p] => [p]
  | p :: ps => (p ++ ['}']) :: fixPieces ps

/-- The sequence of strings the script hands to `json.loads` for a given
raw manifest-listing text: strip, drop brackets, split, re-append braces. -/
def collectedPieces (t : List Char) : List (List Char) :=
  fixPieces (splitBC (drop1dropLast (stripWsNl t)))

/-! ## Model of `json.loads` on the shapes the script feeds it

The script only ever parses single flat objects whose values are strings
(the fields used are `"timestamp"` and `"digest"`), with all spaces and
newlines already removed from the text.  The model below parses exactly
compact flat objects with escape-free string keys and values and rejects
everything else; like `json.loads`, it rejects the empty string. -/

/-- Scan an escape-free string literal body up to the closing quote. -/
def takeStrAux : List Char → List Char → Option (List Char × List Char)
  | [], _ => none
  | c :: rest, acc =>
    if c = '"' then some (acc.reverse, rest)
    else if c = '\\' then none
    else takeStrAux rest (c :: acc)

/-- Consume a leading string literal, returning its body and the remainder. -/
def takeStr : List Char → Option (List Char × List Char)
  | [] => none
  | c :: rest => if c = '"' then takeStrAux rest [] else none

/-- Consume one `"key":"value"` pair. -/
def parsePair (s : List Char) : Option ((List Char × List Char) × List Char) :=
  match takeStr s with
  | none => none
  | some (k, rest) =>
    if rest.head? = some ':' then
      match takeStr rest.tail with
      | none => none
      | some (v, rest2) => some ((k, v), rest2)
    else none

/-- Consume a non-empty comma-separated sequence of pairs. -/
def parsePairsAux : Nat → List Char → Option (List (List Char × List Char) × List Char)
  | 0, _ => none
  | fuel + 1, s =>
    match parsePair s with
    | none => none
    | some (kv, rest) =>
      if rest.head? = some ',' then
        match parsePairsAux fuel rest.tail with
        | none => none
        | some (kvs, rest2) => some (kv :: kvs, rest2)
      else some ([kv], rest)

/-- Parse a complete compact flat JSON object. -/
def parseFlatObjL (s : List Char) : Option (List (List Char × List Char)) :=
  if s.head? = some '{' then
    if s.tail = ['}'] then some []
    else
      match parsePairsAux s.tail.length s.tail with
      | some (kvs, rest) => if rest = ['}'] then some kvs else none
      | none => none
  else none

/-- String-level wrapper of `parseFlatObjL`: the model of `json.loads`
used by the pipeline. -/
def parseFlatObj (s : String) : Option (List (String × String)) :=
  (parseFlatObjL s.data).map fun l => l.map fun p => (String.mk p.1, String.mk p.2)

/-- Python dict lookup on the parsed object; `json.loads` keeps the last
occurrence of a duplicated key. -/
def dictGet (m : List (String × String)) (k : String) : Option String :=
  m.reverse.lookup k

/-! ## Compact serialization of flat JSON arrays

Reference serialization used to state what the textual reconstruction of
the manifest listing does.  A listing text is any whitespace-formatting of
the compact form `[{"k":"v",...},...]` of a non-empty array of flat
objects with string keys and values. -/

/-- Compact serialization of a string literal. -/
def serStr (s : List Char) : List Char := '"' :: (s ++ ['"'])

/-- Compact serialization of one `"key":"value"` pair. -/
def serPair (p : List Char × List Char) : List Char :=
  serStr p.1 ++ ':' :: serStr p.2

/-- Compact serialization of the field list of a flat object. -/
def serFields : List (List Char × List Char) → List Char
  | [] => []
  | [p] => serPair p
  | p :: ps => serPair p ++ ',' :: serFields ps

/-- Compact serialization of a flat object. -/
def serObj (o : List (List Char × List Char)) : List Char :=
  '{' :: (serFields o ++ ['}'])

/-- Compact serialization of the element list of an array. -/
def serObjs : List (List (List Char × List Char)) → List Char
  | [] => []
  | [o] => serObj o
  | o :: os => serObj o ++ ',' :: serObjs os

/-- Compact serialization of an array of flat objects. -/
def arrSer (objs : List (List (List Char × List Char))) : List Char :=
  '[' :: (serObjs objs ++ [']'])

/-- The effect of the script's space/newline removal on a parsed object:
every key and value loses its spaces and newlines. -/
def stripObjLC (o : List (List Char × List Char)) :
    List (List Char × List Char) :=
  o.map fun p => (stripWsNl p.1, stripWsNl p.2)

/-- Escape-free string material: no quote, no backslash. -/
def cleanStrP (s : List Char) : Prop := ∀ c ∈ s, c ≠ '"' ∧ c ≠ '\\'

instance decCleanStrP (s : List Char) : Decidable (cleanStrP s) :=
  inferInstanceAs (Decidable (∀ c ∈ s, c ≠ '"' ∧ c ≠ '\\'))

/-- No space and no newline. -/
def noWs (s : List Char) : Prop := ∀ c ∈ s, c ≠ ' ' ∧ c ≠ '\n'

instance decNoWs (s : List Char) : Decidable (noWs s) :=
  inferInstanceAs (Decidable (∀ c ∈ s, c ≠ ' ' ∧ c ≠ '\n'))

/-! ## Time model

pandas timestamps have nanosecond resolution; `Timedelta.days` is the
floor of the total duration in days. -/

/-- Nanoseconds per day. -/
def ticksPerDay : Int := 86400000000000

/-- Line 141, `(pd.Timestamp.now() - timestamp).days`: floor of the
difference in whole days. -/
def ageDays (now ts : Int) : Int := (now - ts).fdiv ticksPerDay

/-! ## The pipeline -/

/-- Result of one external command: exit status, captured stdout, stderr. -/
structure CmdResult where
  returncode : Int
  stdout : String
  stderr : String

/-- The external world for one run: the outcome of each command the script
may invoke, the pandas timestamp parser (`pd.to_datetime(..).tz_localize(None)`,
as nanosecond ticks) and the wall clock (`pd.Timestamp.now()`, indexed by
the number of earlier calls). -/
structure Env where
  azLogin : CmdResult
  acrLogin : CmdResult
  repoList : CmdResult
  showManifests : String → CmdResult
  deleteImage : String → CmdResult
  parseTime : String → Int
  now : Nat → Int

/-- Observable external calls, in order of invocation. -/
inductive Event where
  | azLoginCall
  | acrLoginCall
  | repoListCall
  | manifestsCall (repo : String)
  | deleteCall (image : String)
deriving DecidableEq

/-- How a run can abort: an `AzureError` raised on a non-zero exit status,
a `json.loads` failure, or a missing dict key. -/
inductive Failure where
  | azure (msg : String)
  | jsonDecode
  | keyError (key : String)
deriving DecidableEq

/-- The script's mutable state (lines 56-58). -/
structure RunState where
  images_to_be_deleted_number : Nat
  images_to_be_deleted_digest : List String
  deleted_images_total : Nat
deriving DecidableEq

/-- Lines 56-58: all counters start at zero. -/
def initState : RunState := ⟨0, [], 0⟩

/-- Lines 132-147: evaluation of a single manifest piece.  `isLast` tells
whether this is the final piece (no `"}"` re-appended); `k` is the number
of earlier `pd.Timestamp.now()` calls. -/
def processManifest (env : Env) (repo : String) (k : Nat) (isLast : Bool)
    (piece : String) (st : RunState) : Except Failure RunState :=
  match parseFlatObj (if isLast then piece else piece ++ "\x7d") with
  | none => .error .jsonDecode
  | some manifest =>
    match dictGet manifest "timestamp" with
    | none => .error (.keyError "timestamp")
    | some ts =>
      if 90 ≤ ageDays (env.now k) (env.parseTime ts) then
        match dictGet manifest "digest" with
        | none => .error (.keyError "digest")
        | some digest =>
          .ok { st with
            images_to_be_deleted_digest :=
              st.images_to_be_deleted_digest ++ [repo ++ "@" ++ digest],
            images_to_be_deleted_number := st.images_to_be_deleted_number + 1 }
      else .ok st

/-- The inner loop over the pieces of one repository's listing. -/
def evalPieces (env : Env) (repo : String) :
    List String → Nat → RunState → Except Failure (Nat × RunState)
  | [], k, st => .ok (k, st)
  | piece :: rest, k, st =>
    match processManifest env repo k rest.isEmpty piece st with
    | .error e => .error e
    | .ok st' => evalPieces env repo rest (k + 1) st'

/-- Lines 110-147: the loop over repositories.  Each iteration invokes
`az acr repository show-manifests` and, on success, evaluates the pieces. -/
def processRepos (env : Env) :
    List String → Nat → RunState → List Event →
    List Event × Except Failure (Nat × RunState)
  | [], k, st, tr => (tr, .ok (k, st))
  | repo :: rest, k, st, tr =>
    if (env.showManifests repo).returncode = 0 then
      match evalPieces env repo (manifestOutputs (env.showManifests repo).stdout) k st with
      | .error e => (tr ++ [Event.manifestsCall repo], .error e)
      | .ok (k', st') => processRepos env rest k' st' (tr ++ [Event.manifestsCall repo])
    else (tr ++ [Event.manifestsCall repo],
          .error (.azure (env.showManifests repo).stderr))

/-- Lines 60-147: the read stages - both logins, the repository listing,
and the manifest collection/evaluation loop. -/
def collectStage (env : Env) : List Event × Except Failure (Nat × RunState) :=
  if env.azLogin.returncode = 0 then
    if env.acrLogin.returncode = 0 then
      if env.repoList.returncode = 0 then
        processRepos env (parseRepos env.repoList.stdout) 0 initState
          [Event.azLoginCall, Event.acrLoginCall, Event.repoListCall]
      else ([Event.azLoginCall, Event.acrLoginCall, Event.repoListCall],
            .error (.azure env.repoList.stderr))
    else ([Event.azLoginCall, Event.acrLoginCall],
          .error (.azure env.acrLogin.stderr))
  else ([Event.azLoginCall], .error (.azure env.azLogin.stderr))

/-- Lines 154-171: the deletion loop over the collected candidates. -/
def deleteImages (env : Env) :
    List String → Nat → List Event → List Event × Except Failure Nat
  | [], total, tr => (tr, .ok total)
  | image :: rest, total, tr =>
    if (env.deleteImage image).returncode = 0 then
      deleteImages env rest (total + 1) (tr ++ [Event.deleteCall image])
    else (tr ++ [Event.deleteCall image],
          .error (.azure (env.deleteImage image).stderr))

/-- Lines 49-173: the whole run, returning the trace of external calls and
either the final state or the failure that aborted the run. -/
def main (env : Env) (dryRun : Bool) : List Event × Except Failure RunState :=
  match collectStage env with
  | (tr, .error e) => (tr, .error e)
  | (tr, .ok (_, st)) =>
    if dryRun then (tr, .ok st)
    else
      match deleteImages env st.images_to_be_deleted_digest 0 tr with
      | (tr', .error e) => (tr', .error e)
      | (tr', .ok total) =>
        (tr', .ok { st with deleted_images_total := total })

/-- The delete invocations recorded in a trace, in order. -/
def deleteCallsOf (tr : List Event) : List String :=
  tr.filterMap fun e =>
    match e with
    | .deleteCall image => some image
    | _ => none

/-! ## Concrete environments used to exercise the model -/

/-- A successful external command with empty output. -/
def cmdOk : CmdResult := ⟨0, "", ""⟩

/-- A registry with one repository `app` holding a 91-day-old manifest
`sha256:a` and an 89-day-old manifest `sha256:b`; every command succeeds. -/
def envHappy : Env where
  azLogin := cmdOk
  acrLogin := cmdOk
  repoList := ⟨0, "app\n", ""⟩
  showManifests := fun _ =>
    ⟨0, "[ \x7b\"digest\": \"sha256:a\", \"timestamp\": \"t0\"\x7d,\n \x7b\"digest\": \"sha256:b\", \"timestamp\": \"t1\"\x7d ]\n", ""⟩
  deleteImage := fun _ => cmdOk
  parseTime := fun s => if s = "t0" then 0 else 89 * ticksPerDay
  now := fun _ => 91 * ticksPerDay

/-- As `envHappy` but the manifest listing reports an empty JSON array. -/
def envEmptyListing : Env :=
  { envHappy with showManifests := fun _ => ⟨0, "[]\n", ""⟩ }

/-- As `envHappy` but the repository listing reports zero repositories. -/
def envZeroRepos : Env := { envHappy with repoList := ⟨0, "", ""⟩ }

/-- As `envHappy` but the Azure identity login fails. -/
def envAzFail : Env := { envHappy with azLogin := ⟨1, "", "az-fail"⟩ }

/-- As `envHappy` but the registry login fails. -/
def envAcrFail : Env := { envHappy with acrLogin := ⟨1, "", "acr-fail"⟩ }

/-- As `envHappy` but the repository listing fails. -/
def envRlFail : Env := { envHappy with repoList := ⟨1, "", "repo-fail"⟩ }

/-- Three repositories; the manifest listing of the second one fails. -/
def envMcFail : Env :=
  { envHappy with
    repoList := ⟨0, "app\nbad\nzzz\n", ""⟩,
    showManifests := fun r =>
      if r = "bad" then ⟨1, "", "mc-fail"⟩ else envHappy.showManifests r }

/-- Two repositories, every manifest eligible; deleting the second
candidate fails. -/
def envDelFail : Env :=
  { envHappy with
    repoList := ⟨0, "app\nlib\n", ""⟩,
    parseTime := fun _ => 0,
    deleteImage := fun i =>
      if i = "app@sha256:b" then ⟨1, "", "del-fail"⟩ else cmdOk }

/-! ## Helper lemmas about the pipeline -/

theorem processManifest_ok_cases {env : Env} {repo : String} {k : Nat}
    {isLast : Bool} {piece : String} {st st' : RunState}
    (h : processManifest env repo k isLast piece st = .ok st') :
    st' = st ∨ ∃ id, st' = { st with
      images_to_be_deleted_digest := st.images_to_be_deleted_digest ++ [id],
      images_to_be_deleted_number := st.images_to_be_deleted_number + 1 } := by
  unfold processManifest at h
  split at h
  · exact absurd h (by simp)
  · split at h
    · exact absurd h (by simp)
    · split at h
      · split at h
        · exact absurd h (by simp)
        · cases h
          exact .inr ⟨_, rfl⟩
      · cases h
        exact .inl rfl

theorem processManifest_deleted {env : Env} {repo : String} {k : Nat}
    {isLast : Bool} {piece : String} {st st' : RunState}
    (h : processManifest env repo k isLast piece st = .ok st') :
    st'.deleted_images_total = st.deleted_images_total := by
  rcases processManifest_ok_cases h with h' | ⟨id, h'⟩ <;> subst h' <;> rfl

theorem processManifest_count {env : Env} {repo : String} {k : Nat}
    {isLast : Bool} {piece : String} {st st' : RunState}
    (h : processManifest env repo k isLast piece st = .ok st')
    (hc : st.images_to_be_deleted_number = st.images_to_be_deleted_digest.length) :
    st'.images_to_be_deleted_number = st'.images_to_be_deleted_digest.length := by
  rcases processManifest_ok_cases h with h' | ⟨id, h'⟩ <;> subst h' <;> simp [hc]

theorem evalPieces_inv {env : Env} {repo : String} :
    ∀ {ps : List String} {k : Nat} {st : RunState} {k' : Nat} {st' : RunState},
    evalPieces env repo ps k st = .ok (k', st') →
    st'.deleted_images_total = st.deleted_images_total ∧
    (st.images_to_be_deleted_number = st.images_to_be_deleted_digest.length →
      st'.images_to_be_deleted_number = st'.images_to_be_deleted_digest.length)
  | [], _, _, _, _, h => by
    cases h
    exact ⟨rfl, fun hc => hc⟩
  | piece :: rest, k, st, k', st', h => by
    unfold evalPieces at h
    split at h
    · exact absurd h (by simp)
    · next st1 hstep =>
      obtain ⟨hd, hc⟩ := evalPieces_inv h
      exact ⟨hd.trans (processManifest_deleted hstep),
        fun hc0 => hc (processManifest_count hstep hc0)⟩

theorem processRepos_ok_trace {env : Env} :
    ∀ {rs : List String} {k : Nat} {st : RunState} {tr : List Event}
      {tr' : List Event} {k' : Nat} {st' : RunState},
    processRepos env rs k st tr = (tr', .ok (k', st')) →
    tr' = tr ++ rs.map Event.manifestsCall
  | [], _, _, tr, _, _, _, h => by
    cases h
    simp
  | repo :: rest, k, st, tr, tr', k', st', h => by
    unfold processRepos at h
    split at h
    · split at h
      · exact absurd h (by simp [Prod.ext_iff])
      · have := processRepos_ok_trace h
        simp only [this]
        simp
    · exact absurd h (by simp [Prod.ext_iff])

theorem processRepos_trace {env : Env} :
    ∀ {rs : List String} {k : Nat} {st : RunState} {tr : List Event}
      {tr' : List Event} {out : Except Failure (Nat × RunState)},
    processRepos env rs k st tr = (tr', out) →
    ∃ tl, tr' = tr ++ tl ∧ deleteCallsOf tl = []
  | [], _, _, tr, _, _, h => by
    cases h
    exact ⟨[], by simp, rfl⟩
  | repo :: rest, k, st, tr, tr', out, h => by
    unfold processRepos at h
    split at h
    · split at h
      · cases h
        exact ⟨[Event.manifestsCall repo], rfl, rfl⟩
      · obtain ⟨tl, htl, hdel⟩ := processRepos_trace h
        refine ⟨Event.manifestsCall repo :: tl, by simp [htl], ?_⟩
        simpa [deleteCallsOf, List.filterMap_cons] using hdel
    · cases h
      exact ⟨[Event.manifestsCall repo], rfl, rfl⟩

theorem processRepos_inv {env : Env} :
    ∀ {rs : List String} {k : Nat} {st : RunState} {tr : List Event}
      {tr' : List Event} {k' : Nat} {st' : RunState},
    processRepos env rs k st tr = (tr', .ok (k', st')) →
    st'.deleted_images_total = st.deleted_images_total ∧
    (st.images_to_be_deleted_number = st.images_to_be_deleted_digest.length →
      st'.images_to_be_deleted_number = st'.images_to_be_deleted_digest.length)
  | [], _, _, _, _, _, _, h => by
    cases h
    exact ⟨rfl, fun hc => hc⟩
  | repo :: rest, k, st, tr, tr', k', st', h => by
    unfold processRepos at h
    split at h
    · split at h
      · exact absurd h (by simp [Prod.ext_iff])
      · next k1 st1 hstep =>
        obtain ⟨hd, hc⟩ := processRepos_inv h
        obtain ⟨hd0, hc0⟩ := evalPieces_inv hstep
        exact ⟨hd.trans hd0, fun hinit => hc (hc0 hinit)⟩
    · exact absurd h (by simp [Prod.ext_iff])

theorem processRepos_append {env : Env} :
    ∀ {rs1 rs2 : List String} {k : Nat} {st : RunState} {tr : List Event},
    processRepos env (rs1 ++ rs2) k st tr =
      match processRepos env rs1 k st tr with
      | (tr1, .ok (k1, st1)) => processRepos env rs2 k1 st1 tr1
      | (tr1, .error e) => (tr1, .error e)
  | [], rs2, k, st, tr => by simp [processRepos]
  | repo :: rest, rs2, k, st, tr => by
    rw [List.cons_append]
    by_cases hrc : (env.showManifests repo).returncode = 0
    · rcases hev : evalPieces env repo (manifestOutputs (env.showManifests repo).stdout) k st
        with e | ⟨k1, st1⟩
      · simp only [processRepos, hrc, if_true, hev]
      · simp only [processRepos, hrc, if_true, hev]
        exact processRepos_append
    · simp only [processRepos, hrc, if_false]

theorem deleteImages_ok_of_all {env : Env} :
    ∀ {imgs : List String} {total : Nat} {tr : List Event},
    (∀ i ∈ imgs, (env.deleteImage i).returncode = 0) →
    deleteImages env imgs total tr =
      (tr ++ imgs.map Event.deleteCall, .ok (total + imgs.length))
  | [], total, tr, _ => by simp [deleteImages]
  | image :: rest, total, tr, hall => by
    have h0 : (env.deleteImage image).returncode = 0 := hall image (by simp)
    have hrest : ∀ i ∈ rest, (env.deleteImage i).returncode = 0 :=
      fun i hi => hall i (by simp [hi])
    simp only [deleteImages, h0, if_true, deleteImages_ok_of_all hrest]
    simp
    omega

theorem deleteImages_spec {env : Env} :
    ∀ {imgs : List String} {total : Nat} {tr tr' : List Event}
      {out : Except Failure Nat},
    deleteImages env imgs total tr = (tr', out) →
    ∃ m, m ≤ imgs.length ∧
      tr' = tr ++ (imgs.take m).map Event.deleteCall ∧
      (∀ t', out = .ok t' → m = imgs.length ∧ t' = total + imgs.length)
  | [], total, tr, tr', out, h => by
    cases h
    exact ⟨0, by simp, by simp, fun t' ht => by cases ht; simp⟩
  | image :: rest, total, tr, tr', out, h => by
    unfold deleteImages at h
    split at h
    · obtain ⟨m, hm, htr, hok⟩ := deleteImages_spec h
      refine ⟨m + 1, by simpa using hm, by simpa using htr, ?_⟩
      intro t' ht
      obtain ⟨hm', ht'⟩ := hok t' ht
      constructor
      · simpa using hm'
      · simp [ht']
        omega
    · cases h
      refine ⟨1, by simp, by simp, ?_⟩
      intro t' ht
      exact absurd ht (by simp)

theorem deleteImages_fail {env : Env} :
    ∀ {pre : List String} {img : String} {post : List String}
      {total : Nat} {tr : List Event},
    (∀ i ∈ pre, (env.deleteImage i).returncode = 0) →
    (env.deleteImage img).returncode ≠ 0 →
    deleteImages env (pre ++ img :: post) total tr =
      (tr ++ pre.map Event.deleteCall ++ [Event.deleteCall img],
       .error (.azure (env.deleteImage img).stderr))
  | [], img, post, total, tr, _, hfail => by
    simp only [List.nil_append, deleteImages, hfail, if_false, List.map_nil,
      List.append_nil]
  | p :: pre, img, post, total, tr, hall, hfail => by
    have h0 : (env.deleteImage p).returncode = 0 := hall p (by simp)
    have hpre : ∀ i ∈ pre, (env.deleteImage i).returncode = 0 :=
      fun i hi => hall i (by simp [hi])
    rw [List.cons_append]
    simp only [deleteImages, h0, if_true, deleteImages_fail hpre hfail]
    simp

theorem deleteCallsOf_append (a b : List Event) :
    deleteCallsOf (a ++ b) = deleteCallsOf a ++ deleteCallsOf b := by
  simp [deleteCallsOf]

theorem deleteCallsOf_manifests (rs : List String) :
    deleteCallsOf (rs.map Event.manifestsCall) = [] := by
  induction rs with
  | nil => rfl
  | cons r rs ih => simp [deleteCallsOf, List.filterMap_cons, ih]

theorem deleteCallsOf_deletes (imgs : List String) :
    deleteCallsOf (imgs.map Event.deleteCall) = imgs := by
  induction imgs with
  | nil => rfl
  | cons i imgs ih => simpa [deleteCallsOf, List.filterMap_cons] using ih

theorem collectStage_trace {env : Env} {tr : List Event}
    {out : Except Failure (Nat × RunState)}
    (h : collectStage env = (tr, out)) : deleteCallsOf tr = [] := by
  unfold collectStage at h
  split at h
  · split at h
    · split at h
      · obtain ⟨tl, htl, hdel⟩ := processRepos_trace h
        rw [htl, deleteCallsOf_append, hdel]
        rfl
      · cases h
        rfl
    · cases h
      rfl
  · cases h
    rfl

theorem collectStage_ok {env : Env} {tr : List Event} {k : Nat} {st : RunState}
    (h : collectStage env = (tr, .ok (k, st))) :
    st.deleted_images_total = 0 ∧
    st.images_to_be_deleted_number = st.images_to_be_deleted_digest.length ∧
    tr = [Event.azLoginCall, Event.acrLoginCall, Event.repoListCall] ++
      (parseRepos env.repoList.stdout).map Event.manifestsCall := by
  unfold collectStage at h
  split at h
  · split at h
    · split at h
      · obtain ⟨hd, hc⟩ := processRepos_inv h
        exact ⟨hd, hc rfl, processRepos_ok_trace h⟩
      · exact absurd h (by simp [Prod.ext_iff])
    · exact absurd h (by simp [Prod.ext_iff])
  · exact absurd h (by simp [Prod.ext_iff])

theorem main_eq_err {env : Env} {tr0 : List Event} {e : Failure}
    (hcs : collectStage env = (tr0, .error e)) :
    ∀ dryRun, main env dryRun = (tr0, .error e) := by
  intro dryRun
  unfold main
  rw [hcs]

theorem main_eq_dry {env : Env} {tr0 : List Event} {k : Nat} {st0 : RunState}
    (hcs : collectStage env = (tr0, .ok (k, st0))) :
    main env true = (tr0, .ok st0) := by
  unfold main
  rw [hcs]
  rfl

theorem main_eq_live {env : Env} {tr0 : List Event} {k : Nat} {st0 : RunState}
    (hcs : collectStage env = (tr0, .ok (k, st0))) :
    main env false =
      match deleteImages env st0.images_to_be_deleted_digest 0 tr0 with
      | (tr', .error e) => (tr', .error e)
      | (tr', .ok total) =>
        (tr', .ok { st0 with deleted_images_total := total }) := by
  unfold main
  rw [hcs]
  rfl

theorem processManifest_eq {env : Env} {repo : String} {k : Nat}
    {isLast : Bool} {piece : String} {st : RunState}
    {m : List (String × String)} {ts : String}
    (hm : parseFlatObj (if isLast then piece else piece ++ "\x7d") = some m)
    (hts : dictGet m "timestamp" = some ts) :
    processManifest env repo k isLast piece st =
      if 90 ≤ ageDays (env.now k) (env.parseTime ts) then
        match dictGet m "digest" with
        | none => .error (.keyError "digest")
        | some digest => .ok { st with
            images_to_be_deleted_digest :=
              st.images_to_be_deleted_digest ++ [repo ++ "@" ++ digest],
            images_to_be_deleted_number := st.images_to_be_deleted_number + 1 }
      else .ok st := by
  simp only [processManifest, hm, hts]

/-! ## The claims -/

/-- C1: a manifest is added to the deletion-candidate list iff its computed
age in days is at least 90.  With age below 90 the state is returned
unchanged (the manifest is never included); with age at least 90 the
qualified id `repo@digest` is appended exactly once and the eligible
counter is incremented by exactly one. -/
theorem c1_retention_decision {env : Env} {repo : String} {k : Nat}
    {isLast : Bool} {piece : String} {st : RunState}
    {m : List (String × String)} {ts : String}
    (hm : parseFlatObj (if isLast then piece else piece ++ "\x7d") = some m)
    (hts : dictGet m "timestamp" = some ts) :
    (ageDays (env.now k) (env.parseTime ts) < 90 →
      processManifest env repo k isLast piece st = .ok st) ∧
    (90 ≤ ageDays (env.now k) (env.parseTime ts) →
      ∀ d, dictGet m "digest" = some d →
        processManifest env repo k isLast piece st = .ok { st with
          images_to_be_deleted_digest :=
            st.images_to_be_deleted_digest ++ [repo ++ "@" ++ d],
          images_to_be_deleted_number :=
            st.images_to_be_deleted_number + 1 }) := by
  constructor
  · intro hlt
    rw [processManifest_eq hm hts, if_neg (by omega)]
  · intro hge d hd
    rw [processManifest_eq hm hts, if_pos hge, hd]

/-- Witness for C1 on the concrete registry `envHappy`: the 91-day-old
manifest `sha256:a` is appended (counter 0 → 1), the 89-day-old manifest
`sha256:b` leaves the state unchanged. -/
theorem c1_retention_decision_witness :
    processManifest envHappy "app" 0 false
        "\x7b\"digest\":\"sha256:a\",\"timestamp\":\"t0\"" initState =
      .ok ⟨1, ["app@sha256:a"], 0⟩ ∧
    processManifest envHappy "app" 1 true
        "\x7b\"digest\":\"sha256:b\",\"timestamp\":\"t1\"\x7d" initState =
      .ok initState := by
  constructor
  · exact (@c1_retention_decision envHappy "app" 0 false
      "\x7b\"digest\":\"sha256:a\",\"timestamp\":\"t0\"" initState
      [("digest", "sha256:a"), ("timestamp", "t0")] "t0"
      (by rfl) (by rfl)).2 (by decide) "sha256:a" (by rfl)
  · exact (@c1_retention_decision envHappy "app" 1 true
      "\x7b\"digest\":\"sha256:b\",\"timestamp\":\"t1\"\x7d" initState
      [("digest", "sha256:b"), ("timestamp", "t1")] "t1"
      (by rfl) (by rfl)).1 (by decide)

/-- C2: the spec requires that a manifest listing reporting zero manifests
(an empty JSON array) yields an empty sequence and is not an error.  The
code instead turns `"[]"` into the single piece `""` (it even counts one
manifest), hands `""` to `json.loads`, and the run aborts with a JSON
decode failure: with all commands succeeding and one repository whose
listing is `[]`, no further pipeline step executes. -/
theorem c2_empty_listing_crashes :
    manifestOutputs "[]\n" = [""] ∧
    parseFlatObj "" = none ∧
    main envEmptyListing false =
      ([Event.azLoginCall, Event.acrLoginCall, Event.repoListCall,
        Event.manifestsCall "app"], .error .jsonDecode) :=
  ⟨rfl, rfl, rfl⟩

/-- C4: with the dry-run flag enabled the delete operation is never
invoked - the trace contains no delete call whatever the outcome - and on
success the deleted counter is 0 while all read steps appear in the trace:
both logins, the repository listing, and one manifest listing per
enumerated repository, in order. -/
theorem c4_dry_run_no_delete {env : Env} {tr : List Event}
    {out : Except Failure RunState} (h : main env true = (tr, out)) :
    deleteCallsOf tr = [] ∧
    ∀ st, out = .ok st →
      st.deleted_images_total = 0 ∧
      tr = [Event.azLoginCall, Event.acrLoginCall, Event.repoListCall] ++
        (parseRepos env.repoList.stdout).map Event.manifestsCall := by
  rcases hcs : collectStage env with ⟨tr0, out0⟩
  rcases out0 with e | ⟨k, st0⟩
  · rw [main_eq_err hcs true] at h
    cases h
    exact ⟨collectStage_trace hcs, fun st hst => absurd hst (by simp)⟩
  · rw [main_eq_dry hcs] at h
    cases h
    refine ⟨collectStage_trace hcs, ?_⟩
    intro st hst
    cases hst
    obtain ⟨hd, _, htr⟩ := collectStage_ok hcs
    exact ⟨hd, htr⟩

/-- Witness for C4: the dry run on `envHappy` issues no delete call,
reports one candidate, and keeps the deleted counter at 0. -/
theorem c4_dry_run_no_delete_witness :
    deleteCallsOf [Event.azLoginCall, Event.acrLoginCall, Event.repoListCall,
      Event.manifestsCall "app"] = [] ∧
    ∀ st, (Except.ok (⟨1, ["app@sha256:a"], 0⟩ : RunState) :
        Except Failure RunState) = .ok st →
      st.deleted_images_total = 0 ∧
      [Event.azLoginCall, Event.acrLoginCall, Event.repoListCall,
        Event.manifestsCall "app"] =
        [Event.azLoginCall, Event.acrLoginCall, Event.repoListCall] ++
          (parseRepos envHappy.repoList.stdout).map Event.manifestsCall :=
  @c4_dry_run_no_delete envHappy
    [Event.azLoginCall, Event.acrLoginCall, Event.repoListCall,
      Event.manifestsCall "app"]
    (Except.ok ⟨1, ["app@sha256:a"], 0⟩) rfl

/-- C6: the age of a manifest is the floor of the elapsed time in whole
days, `floor((now - timestamp) / nanoseconds-per-day)`; the clock is
sampled once per manifest evaluated (the head of the piece list uses
sample `k`, the rest continue from `k + 1`), and the classification of a
manifest uses exactly the sample taken at its own evaluation. -/
theorem c6_age_is_floor_days :
    (∀ now ts : Int, ageDays now ts =
      ⌊((now - ts : Int) : ℚ) / ((86400000000000 : Int) : ℚ)⌋) ∧
    (∀ (env : Env) repo piece rest k st,
      evalPieces env repo (piece :: rest) k st =
        match processManifest env repo k rest.isEmpty piece st with
        | .error e => .error e
        | .ok st' => evalPieces env repo rest (k + 1) st') ∧
    (∀ (env : Env) repo k isLast piece st (m : List (String × String)) ts,
      parseFlatObj (if isLast then piece else piece ++ "\x7d") = some m →
      dictGet m "timestamp" = some ts →
      ¬ 90 ≤ ageDays (env.now k) (env.parseTime ts) →
      processManifest env repo k isLast piece st = .ok st) := by
  refine ⟨?_, fun env repo piece rest k st => rfl, ?_⟩
  · intro now ts
    have hcast : ((86400000000000 : Int) : ℚ) = ((86400000000000 : ℕ) : ℚ) := by
      norm_num
    rw [ageDays, ticksPerDay, Int.fdiv_eq_ediv _ (by norm_num), hcast,
      Rat.floor_intCast_div_natCast]
    norm_num
  · intro env repo k isLast piece st m ts hm hts hlt
    rw [processManifest_eq hm hts, if_neg hlt]

/-- Witness for C6: 91 whole days elapse between tick 0 and tick
91 * ticksPerDay, and the 89-day-old manifest of `envHappy` is left
unclassified at clock sample 1. -/
theorem c6_age_is_floor_days_witness :
    ageDays (91 * ticksPerDay) 0 =
      ⌊((91 * ticksPerDay - 0 : Int) : ℚ) / ((86400000000000 : Int) : ℚ)⌋ ∧
    processManifest envHappy "app" 1 true
        "\x7b\"digest\":\"sha256:b\",\"timestamp\":\"t1\"\x7d" initState =
      .ok initState :=
  ⟨c6_age_is_floor_days.1 _ _,
   c6_age_is_floor_days.2.2 envHappy "app" 1 true _ initState _ "t1"
     (by rfl) (by rfl) (by decide)⟩

/-- C7: when the repository listing succeeds and reports zero repositories
(empty output), the run completes successfully in either mode with zero
candidates, zero deletions, and no delete invocation. -/
theorem c7_zero_repositories {env : Env}
    (haz : env.azLogin.returncode = 0) (hacr : env.acrLogin.returncode = 0)
    (hrl : env.repoList.returncode = 0) (hout : env.repoList.stdout = "") :
    ∀ dryRun, main env dryRun =
      ([Event.azLoginCall, Event.acrLoginCall, Event.repoListCall],
       .ok initState) := by
  intro dryRun
  have hrepos : parseRepos env.repoList.stdout = [] := by rw [hout]; rfl
  have hcs : collectStage env =
      ([Event.azLoginCall, Event.acrLoginCall, Event.repoListCall],
       .ok (0, initState)) := by
    simp [collectStage, haz, hacr, hrl, hrepos, processRepos]
  cases dryRun with
  | true => simp [main, hcs]
  | false => simp [main, hcs, deleteImages, initState]

/-- Witness for C7: the registry of `envZeroRepos` lists no repositories
and the live run ends successfully with the all-zero state. -/
theorem c7_zero_repositories_witness :
    main envZeroRepos false =
      ([Event.azLoginCall, Event.acrLoginCall, Event.repoListCall],
       .ok initState) :=
  @c7_zero_repositories envZeroRepos rfl rfl rfl rfl false

/-- C8: the eligible counter always equals the length of the candidate
list: it does so initially, every single manifest evaluation either leaves
both unchanged or appends one identifier while incrementing the counter by
one, and the equality holds in every state a run reaches successfully. -/
theorem c8_counter_matches_list :
    (initState.images_to_be_deleted_number =
      initState.images_to_be_deleted_digest.length) ∧
    (∀ (env : Env) repo k isLast piece st st',
      processManifest env repo k isLast piece st = .ok st' →
      st' = st ∨ ∃ id, st' = { st with
        images_to_be_deleted_digest := st.images_to_be_deleted_digest ++ [id],
        images_to_be_deleted_number := st.images_to_be_deleted_number + 1 }) ∧
    (∀ (env : Env) tr k st, collectStage env = (tr, .ok (k, st)) →
      st.images_to_be_deleted_number =
        st.images_to_be_deleted_digest.length) ∧
    (∀ (env : Env) dryRun tr st, main env dryRun = (tr, .ok st) →
      st.images_to_be_deleted_number =
        st.images_to_be_deleted_digest.length) := by
  refine ⟨rfl, fun env repo k isLast piece st st' h =>
    processManifest_ok_cases h,
    fun env tr k st h => (collectStage_ok h).2.1, ?_⟩
  intro env dryRun tr st h
  rcases hcs : collectStage env with ⟨tr0, out0⟩
  rcases out0 with e | ⟨k, st0⟩
  · rw [main_eq_err hcs dryRun] at h
    exact absurd h (by simp [Prod.ext_iff])
  · have hinv := (collectStage_ok hcs).2.1
    rcases dryRun with _ | _
    · rw [main_eq_live hcs] at h
      rcases hdel : deleteImages env st0.images_to_be_deleted_digest 0 tr0
        with ⟨tr1, out1⟩
      rw [hdel] at h
      rcases out1 with e | total
      · exact absurd h (by simp [Prod.ext_iff])
      · cases h
        exact hinv
    · rw [main_eq_dry hcs] at h
      cases h
      exact hinv

/-- C3: every external operation that reports a non-zero exit status
aborts the run immediately with that operation's error text and no later
pipeline step executes: a failed identity login stops after one call; a
failed registry login after two; a failed repository listing after three;
a failed manifest listing ends the trace right at that repository's call
(no later repository is listed and nothing is ever deleted); and a failed
delete ends the trace right at that candidate's call (no later candidate
is attempted). -/
theorem c3_fail_fast (env : Env) :
    (env.azLogin.returncode ≠ 0 → ∀ dryRun,
      main env dryRun =
        ([Event.azLoginCall], .error (.azure env.azLogin.stderr))) ∧
    (env.azLogin.returncode = 0 → env.acrLogin.returncode ≠ 0 → ∀ dryRun,
      main env dryRun = ([Event.azLoginCall, Event.acrLoginCall],
        .error (.azure env.acrLogin.stderr))) ∧
    (env.azLogin.returncode = 0 → env.acrLogin.returncode = 0 →
      env.repoList.returncode ≠ 0 → ∀ dryRun,
      main env dryRun =
        ([Event.azLoginCall, Event.acrLoginCall, Event.repoListCall],
         .error (.azure env.repoList.stderr))) ∧
    (∀ pre r post tr1 k1 st1,
      env.azLogin.returncode = 0 → env.acrLogin.returncode = 0 →
      env.repoList.returncode = 0 →
      parseRepos env.repoList.stdout = pre ++ r :: post →
      processRepos env pre 0 initState
        [Event.azLoginCall, Event.acrLoginCall, Event.repoListCall] =
        (tr1, .ok (k1, st1)) →
      (env.showManifests r).returncode ≠ 0 → ∀ dryRun,
      main env dryRun = (tr1 ++ [Event.manifestsCall r],
        .error (.azure (env.showManifests r).stderr)) ∧
      deleteCallsOf (tr1 ++ [Event.manifestsCall r]) = []) ∧
    (∀ tr0 k st pre img post,
      collectStage env = (tr0, .ok (k, st)) →
      st.images_to_be_deleted_digest = pre ++ img :: post →
      (∀ i ∈ pre, (env.deleteImage i).returncode = 0) →
      (env.deleteImage img).returncode ≠ 0 →
      main env false =
        (tr0 ++ pre.map Event.deleteCall ++ [Event.deleteCall img],
         .error (.azure (env.deleteImage img).stderr))) := by
  refine ⟨?_, ?_, ?_, ?_, ?_⟩
  · intro h dryRun
    have hcs : collectStage env =
        ([Event.azLoginCall], .error (.azure env.azLogin.stderr)) := by
      unfold collectStage
      rw [if_neg h]
    exact main_eq_err hcs dryRun
  · intro h1 h2 dryRun
    have hcs : collectStage env = ([Event.azLoginCall, Event.acrLoginCall],
        .error (.azure env.acrLogin.stderr)) := by
      unfold collectStage
      rw [if_pos h1, if_neg h2]
    exact main_eq_err hcs dryRun
  · intro h1 h2 h3 dryRun
    have hcs : collectStage env =
        ([Event.azLoginCall, Event.acrLoginCall, Event.repoListCall],
         .error (.azure env.repoList.stderr)) := by
      unfold collectStage
      rw [if_pos h1, if_pos h2, if_neg h3]
    exact main_eq_err hcs dryRun
  · intro pre r post tr1 k1 st1 h1 h2 h3 hsplit hpre hfail dryRun
    have hcs : collectStage env = (tr1 ++ [Event.manifestsCall r],
        .error (.azure (env.showManifests r).stderr)) := by
      unfold collectStage
      rw [if_pos h1, if_pos h2, if_pos h3, hsplit, processRepos_append, hpre]
      show processRepos env (r :: post) k1 st1 tr1 = _
      unfold processRepos
      rw [if_neg hfail]
    refine ⟨main_eq_err hcs dryRun, ?_⟩
    rw [processRepos_ok_trace hpre, List.append_assoc, deleteCallsOf_append]
    rw [deleteCallsOf_append, deleteCallsOf_manifests]
    rfl
  · intro tr0 k st pre img post hcs hdig hpreok hfail
    have hlive := main_eq_live hcs
    rw [hdig, deleteImages_fail hpreok hfail] at hlive
    exact hlive

/-- Witness for C3: each of the five failure points, on a concrete
environment failing exactly there, aborts with that operation's error
text and the expected truncated trace. -/
theorem c3_fail_fast_witness :
    main envAzFail false =
      ([Event.azLoginCall], .error (.azure "az-fail")) ∧
    main envAcrFail false =
      ([Event.azLoginCall, Event.acrLoginCall], .error (.azure "acr-fail")) ∧
    main envRlFail false =
      ([Event.azLoginCall, Event.acrLoginCall, Event.repoListCall],
       .error (.azure "repo-fail")) ∧
    main envMcFail false =
      ([Event.azLoginCall, Event.acrLoginCall, Event.repoListCall,
        Event.manifestsCall "app"] ++ [Event.manifestsCall "bad"],
       .error (.azure "mc-fail")) ∧
    main envDelFail false =
      ([Event.azLoginCall, Event.acrLoginCall, Event.repoListCall,
        Event.manifestsCall "app", Event.manifestsCall "lib"] ++
        [Event.deleteCall "app@sha256:a"] ++
        [Event.deleteCall "app@sha256:b"],
       .error (.azure "del-fail")) := by
  refine ⟨(c3_fail_fast envAzFail).1 (by decide) false,
    (c3_fail_fast envAcrFail).2.1 rfl (by decide) false,
    (c3_fail_fast envRlFail).2.2.1 rfl rfl (by decide) false, ?_, ?_⟩
  · exact ((c3_fail_fast envMcFail).2.2.2.1 ["app"] "bad" ["zzz"]
      [Event.azLoginCall, Event.acrLoginCall, Event.repoListCall,
        Event.manifestsCall "app"] 2 ⟨1, ["app@sha256:a"], 0⟩
      rfl rfl rfl rfl rfl (by decide) false).1
  · exact (c3_fail_fast envDelFail).2.2.2.2
      [Event.azLoginCall, Event.acrLoginCall, Event.repoListCall,
        Event.manifestsCall "app", Event.manifestsCall "lib"] 4
      ⟨4, ["app@sha256:a", "app@sha256:b", "lib@sha256:a", "lib@sha256:b"], 0⟩
      ["app@sha256:a"] "app@sha256:b" ["lib@sha256:a", "lib@sha256:b"]
      rfl rfl (by decide) (by decide)

/-- C5: a live run that reaches the deletion step invokes delete once per
candidate in collection order: the delete calls in the trace are always a
prefix of the collected candidate list, their number never exceeds the
eligible counter, and on successful completion the calls are exactly the
candidate list and the deleted counter equals the eligible counter. -/
theorem c5_live_run {env : Env} {tr0 : List Event} {k : Nat} {st : RunState}
    (hcs : collectStage env = (tr0, .ok (k, st))) :
    ∀ tr out, main env false = (tr, out) →
      (∃ m, m ≤ st.images_to_be_deleted_digest.length ∧
        deleteCallsOf tr = st.images_to_be_deleted_digest.take m) ∧
      (deleteCallsOf tr).length ≤ st.images_to_be_deleted_number ∧
      (∀ st', out = .ok st' →
        deleteCallsOf tr = st.images_to_be_deleted_digest ∧
        st'.images_to_be_deleted_digest = st.images_to_be_deleted_digest ∧
        st'.images_to_be_deleted_number = st.images_to_be_deleted_number ∧
        st'.deleted_images_total = st'.images_to_be_deleted_number) := by
  intro tr out h
  rw [main_eq_live hcs] at h
  rcases hdel : deleteImages env st.images_to_be_deleted_digest 0 tr0
    with ⟨tr1, out1⟩
  rw [hdel] at h
  obtain ⟨m, hm, htr1, hok⟩ := deleteImages_spec hdel
  obtain ⟨hdel0, hnum, _⟩ := collectStage_ok hcs
  have htrdel : deleteCallsOf tr1 = st.images_to_be_deleted_digest.take m := by
    rw [htr1, deleteCallsOf_append, collectStage_trace hcs,
      deleteCallsOf_deletes]
    rfl
  have hlen : (deleteCallsOf tr1).length ≤ st.images_to_be_deleted_number := by
    rw [htrdel, hnum]
    simp [hm]
  rcases out1 with e | total
  · cases h
    exact ⟨⟨m, hm, htrdel⟩, hlen, fun st' hst' => absurd hst' (by simp)⟩
  · cases h
    obtain ⟨hmlen, htotal⟩ := hok total rfl
    refine ⟨⟨m, hm, htrdel⟩, hlen, ?_⟩
    intro st' hst'
    cases hst'
    refine ⟨?_, rfl, rfl, ?_⟩
    · rw [htrdel, hmlen, List.take_length]
    · simp [htotal, hnum]

/-- Witness for C5: the live run on `envHappy` deletes the single
candidate `app@sha256:a`, in order, with deleted counter 1 = eligible
counter 1. -/
theorem c5_live_run_witness :
    (∃ m, m ≤ (["app@sha256:a"] : List String).length ∧
      deleteCallsOf [Event.azLoginCall, Event.acrLoginCall,
        Event.repoListCall, Event.manifestsCall "app",
        Event.deleteCall "app@sha256:a"] =
        (["app@sha256:a"] : List String).take m) ∧
    (deleteCallsOf [Event.azLoginCall, Event.acrLoginCall,
      Event.repoListCall, Event.manifestsCall "app",
      Event.deleteCall "app@sha256:a"]).length ≤ 1 ∧
    (∀ st', (Except.ok (⟨1, ["app@sha256:a"], 1⟩ : RunState) :
        Except Failure RunState) = .ok st' →
      deleteCallsOf [Event.azLoginCall, Event.acrLoginCall,
        Event.repoListCall, Event.manifestsCall "app",
        Event.deleteCall "app@sha256:a"] = ["app@sha256:a"] ∧
      st'.images_to_be_deleted_digest = ["app@sha256:a"] ∧
      st'.images_to_be_deleted_number = 1 ∧
      st'.deleted_images_total = st'.images_to_be_deleted_number) :=
  @c5_live_run envHappy
    [Event.azLoginCall, Event.acrLoginCall, Event.repoListCall,
      Event.manifestsCall "app"] 2 ⟨1, ["app@sha256:a"], 0⟩
    rfl
    [Event.azLoginCall, Event.acrLoginCall, Event.repoListCall,
      Event.manifestsCall "app", Event.deleteCall "app@sha256:a"]
    (Except.ok ⟨1, ["app@sha256:a"], 1⟩) rfl

/-- Witness for C8: the state reached by the dry run on `envHappy` has
counter 1 and exactly one recorded identifier. -/
theorem c8_counter_matches_list_witness :
    (⟨1, ["app@sha256:a"], 0⟩ : RunState).images_to_be_deleted_number =
      (⟨1, ["app@sha256:a"], 0⟩ : RunState).images_to_be_deleted_digest.length :=
  c8_counter_matches_list.2.2.2 envHappy true
    [Event.azLoginCall, Event.acrLoginCall, Event.repoListCall,
      Event.manifestsCall "app"] ⟨1, ["app@sha256:a"], 0⟩ rfl

/-! ## Lemmas about the newline split (repository enumeration) -/

theorem splitNl_ne_nil (s : List Char) : splitNl s ≠ [] := by
  induction s with
  | nil => simp [splitNl]
  | cons c rest ih =>
    unfold splitNl
    split
    · simp
    · split
      · simp
      · simp

theorem splitNl_append_nl (t : List Char) :
    splitNl (t ++ ['\n']) = splitNl t ++ [[]] := by
  induction t with
  | nil => rfl
  | cons c t ih =>
    by_cases hc : c = '\n'
    · subst hc
      simp [splitNl, ih]
    · obtain ⟨p, ps, hps⟩ := List.exists_cons_of_ne_nil (splitNl_ne_nil t)
      simp [splitNl, hc, ih, hps]

theorem splitNl_append_char {c : Char} (hc : c ≠ '\n') (t : List Char) :
    splitNl (t ++ [c]) = appendLast c (splitNl t) := by
  induction t with
  | nil => simp [splitNl, appendLast, hc]
  | cons d t ih =>
    obtain ⟨p, ps, hps⟩ := List.exists_cons_of_ne_nil (splitNl_ne_nil t)
    by_cases hd : d = '\n'
    · subst hd
      simp [splitNl, ih, hps, appendLast]
    · rcases ps with _ | ⟨p2, ps'⟩
      · simp [splitNl, hd, ih, hps, appendLast]
      · simp [splitNl, hd, ih, hps, appendLast]

theorem appendLast_ne_nil (c : Char) (L : List (List Char)) :
    appendLast c L ≠ [] := by
  rcases L with _ | ⟨p, _ | ⟨q, L'⟩⟩ <;> simp [appendLast]

theorem getLast?_cons_of_ne_nil {α : Type} (a : α) {l : List α}
    (h : l ≠ []) : (a :: l).getLast? = l.getLast? := by
  rcases l with _ | ⟨b, l⟩
  · exact absurd rfl h
  · exact List.getLast?_cons_cons

theorem appendLast_getLast? (c : Char) :
    ∀ (L : List (List Char)) (p : List Char), L.getLast? = some p →
      (appendLast c L).getLast? = some (p ++ [c]) := by
  intro L
  induction L with
  | nil => intro p h; cases h
  | cons q L ih =>
    intro p h
    rcases L with _ | ⟨q2, L'⟩
    · simp at h
      subst h
      simp [appendLast]
    · rw [List.getLast?_cons_cons] at h
      rw [show appendLast c (q :: q2 :: L') = q :: appendLast c (q2 :: L')
          from rfl,
        getLast?_cons_of_ne_nil _ (appendLast_ne_nil c _)]
      exact ih p h

theorem eq_dropLast_append_of_getLast? {α : Type} :
    ∀ {l : List α} {a : α}, l.getLast? = some a → l = l.dropLast ++ [a] := by
  intro l
  induction l with
  | nil => intro a h; cases h
  | cons b l ih =>
    intro a h
    rcases l with _ | ⟨c', l'⟩
    · simp at h
      subst h
      rfl
    · rw [List.getLast?_cons_cons] at h
      conv_lhs => rw [ih h]
      rfl

/-- C9: the repository enumerator splits on newlines and drops the final
segment: empty output yields no repositories; output ending in a newline
yields exactly the newline-delimited segments of the text before that
final newline; and non-empty output not ending in a newline loses its
(non-empty) last name. -/
theorem c9_repo_enumeration :
    parseRepos "" = [] ∧
    (∀ t : List Char, parseReposL (t ++ ['\n']) = splitNl t) ∧
    (∀ s : List Char, s ≠ [] → s.getLast? ≠ some '\n' →
      ∃ name, name ≠ [] ∧ splitNl s = parseReposL s ++ [name]) := by
  refine ⟨rfl, ?_, ?_⟩
  · intro t
    rw [parseReposL, splitNl_append_nl]
    simp
  · intro s hne hlast
    rcases List.eq_nil_or_concat s with rfl | ⟨t, c, rfl⟩
    · exact absurd rfl hne
    · have hc : c ≠ '\n' := by
        intro hcc
        subst hcc
        exact hlast (by simp)
      rw [List.concat_eq_append, splitNl_append_char hc, parseReposL,
        splitNl_append_char hc]
      obtain ⟨p, hp⟩ : ∃ p, (splitNl t).getLast? = some p := by
        obtain ⟨q, qs, hqs⟩ := List.exists_cons_of_ne_nil (splitNl_ne_nil t)
        rcases h : (splitNl t).getLast? with _ | p
        · rw [hqs] at h
          simp at h
        · exact ⟨p, rfl⟩
      exact ⟨p ++ [c], by simp,
        eq_dropLast_append_of_getLast? (appendLast_getLast? c _ p hp)⟩

/-- Witness for C9: the listing text `"a\nb"` (no trailing newline) yields
only `["a"]`; the dropped last segment is the non-empty name `"b"`. -/
theorem c9_repo_enumeration_witness :
    ∃ name, name ≠ [] ∧
      splitNl "a\nb".data = parseReposL "a\nb".data ++ [name] :=
  c9_repo_enumeration.2.2 "a\nb".data (by decide) (by decide)

/-! ## Lemmas about the brace-comma split and the serialization -/

theorem hasBC_cons {c : Char} {s : List Char} (hc : c ≠ '}')
    (h : hasBC s = false) : hasBC (c :: s) = false := by
  rcases s with _ | ⟨d, s'⟩
  · rfl
  · simp only [hasBC] at h ⊢
    simp [h, hc]

theorem hasBC_append {a b : List Char} (ha : hasBC a = false)
    (hb : hasBC b = false)
    (hj : a.getLast? ≠ some '}' ∨ b.head? ≠ some ',') :
    hasBC (a ++ b) = false := by
  induction a with
  | nil => simpa using hb
  | cons c a' ih =>
    rcases a' with _ | ⟨c2, a''⟩
    · rcases b with _ | ⟨d, b'⟩
      · rfl
      · simp only [List.cons_append, List.nil_append, hasBC]
        have hcd : ¬ (c = '}' ∧ d = ',') := by
          rcases hj with hj | hj
          · intro hh
            exact hj (by simp [hh.1])
          · intro hh
            exact hj (by simp [hh.2])
        simp [hb]
        intro h1 h2
        exact absurd ⟨h1, h2⟩ hcd
    · simp only [hasBC] at ha
      obtain ⟨ha1, ha2⟩ := by simpa using ha
      have ihr : hasBC ((c2 :: a'') ++ b) = false := by
        refine ih ?_ ?_
        · simpa [hasBC] using ha2
        · rcases hj with hj | hj
          · exact .inl (by rwa [List.getLast?_cons_cons] at hj)
          · exact .inr hj
      simp only [List.cons_append, hasBC] at ihr ⊢
      simp [ihr]
      intro h1 h2
      exact absurd h2 (by simpa [h1] using ha1)

theorem splitBC_ne_nil (s : List Char) : splitBC s ≠ [] := by
  rcases s with _ | ⟨c, _ | ⟨d, rest⟩⟩
  · simp [splitBC]
  · simp [splitBC]
  · unfold splitBC
    split
    · simp
    · split
      · simp
      · simp

theorem splitBC_noBC : ∀ {s : List Char}, hasBC s = false → splitBC s = [s]
  | [], _ => rfl
  | [c], _ => rfl
  | c1 :: c2 :: rest, h => by
    simp only [hasBC] at h
    obtain ⟨h1, h2⟩ := by simpa using h
    have hne : ¬ (c1 = '}' ∧ c2 = ',') := by
      intro hh
      exact absurd hh.2 (by simpa [hh.1] using h1)
    have hrec : splitBC (c2 :: rest) = [c2 :: rest] :=
      splitBC_noBC (by simpa [hasBC] using h2)
    simp [splitBC, hne, hrec]

theorem splitBC_junction :
    ∀ (u b : List Char), hasBC (u ++ ['}']) = false →
      splitBC (u ++ '}' :: ',' :: b) = u :: splitBC b
  | [], b, _ => by simp [splitBC]
  | [c], b, h => by
    have hc : ¬ (c = '}' ∧ '}' = ',') := by
      rintro ⟨-, hcc⟩
      exact absurd hcc (by decide)
    simp [splitBC, hc]
  | c1 :: c2 :: u', b, h => by
    simp only [List.cons_append, hasBC] at h
    obtain ⟨h1, h2⟩ := by simpa using h
    have hne : ¬ (c1 = '}' ∧ c2 = ',') := by
      intro hh
      exact absurd hh.2 (by simpa [hh.1] using h1)
    have hrec : splitBC ((c2 :: u') ++ '}' :: ',' :: b) =
        (c2 :: u') :: splitBC b :=
      splitBC_junction (c2 :: u') b (by simpa [hasBC] using h2)
    simp only [List.cons_append] at hrec ⊢
    simp [splitBC, hne, hrec]

theorem serStr_getLast? (s : List Char) : (serStr s).getLast? = some '"' := by
  rw [serStr, show '"' :: (s ++ ['"']) = ('"' :: s) ++ ['"'] from rfl]
  exact List.getLast?_concat _

theorem serPair_getLast? (p : List Char × List Char) :
    (serPair p).getLast? = some '"' := by
  rw [serPair, List.getLast?_append_of_ne_nil _ (by simp),
    getLast?_cons_of_ne_nil _ (by simp [serStr])]
  exact serStr_getLast? p.2

theorem hasBC_serStr {s : List Char} (h : hasBC s = false) :
    hasBC (serStr s) = false := by
  rw [serStr]
  exact hasBC_cons (by decide)
    (hasBC_append h rfl (.inr (by simp)))

theorem hasBC_serPair {p : List Char × List Char}
    (h1 : hasBC p.1 = false) (h2 : hasBC p.2 = false) :
    hasBC (serPair p) = false := by
  rw [serPair]
  refine hasBC_append (hasBC_serStr h1) ?_ (.inl ?_)
  · exact hasBC_cons (by decide) (hasBC_serStr h2)
  · rw [serStr_getLast?]
    simp

theorem hasBC_serFields :
    ∀ {fs : List (List Char × List Char)},
    (∀ p ∈ fs, hasBC p.1 = false ∧ hasBC p.2 = false) →
    hasBC (serFields fs) = false
  | [], _ => rfl
  | [p], h => by
    rw [serFields]
    exact hasBC_serPair (h p (by simp)).1 (h p (by simp)).2
  | p :: p2 :: fs', h => by
    rw [show serFields (p :: p2 :: fs') =
      serPair p ++ ',' :: serFields (p2 :: fs') from rfl]
    refine hasBC_append (hasBC_serPair (h p (by simp)).1 (h p (by simp)).2)
      ?_ (.inl ?_)
    · refine hasBC_cons (by decide) ?_
      exact hasBC_serFields fun q hq => h q (by simp [hq])
    · rw [serPair_getLast?]
      simp

theorem hasBC_serObj {o : List (List Char × List Char)}
    (h : ∀ p ∈ o, hasBC p.1 = false ∧ hasBC p.2 = false) :
    hasBC (serObj o) = false := by
  rw [serObj]
  refine hasBC_cons (by decide) ?_
  exact hasBC_append (hasBC_serFields h) rfl (.inr (by simp))

theorem fixPieces_splitBC_serObjs :
    ∀ {objs : List (List (List Char × List Char))}, objs ≠ [] →
    (∀ o ∈ objs, hasBC (serObj o) = false) →
    fixPieces (splitBC (serObjs objs)) = objs.map serObj
  | [], hne, _ => absurd rfl hne
  | [o], _, h => by
    rw [show serObjs [o] = serObj o from rfl,
      splitBC_noBC (h o (by simp))]
    rfl
  | o :: o2 :: os, _, h => by
    have hsplit : splitBC (serObjs (o :: o2 :: os)) =
        ('{' :: serFields o) :: splitBC (serObjs (o2 :: os)) := by
      have harr : serObjs (o :: o2 :: os) =
          ('{' :: serFields o) ++ '}' :: ',' :: serObjs (o2 :: os) := by
        show serObj o ++ ',' :: serObjs (o2 :: os) = _
        rw [serObj]
        simp
      rw [harr]
      exact splitBC_junction _ _ (h o (by simp))
    obtain ⟨q, qs, hq⟩ :=
      List.exists_cons_of_ne_nil (splitBC_ne_nil (serObjs (o2 :: os)))
    have hrest : fixPieces (splitBC (serObjs (o2 :: os))) =
        (o2 :: os).map serObj :=
      fixPieces_splitBC_serObjs (by simp) fun o' ho' => h o' (by simp [ho'])
    rw [hsplit, hq]
    rw [show fixPieces (('{' :: serFields o) :: q :: qs) =
      (('{' :: serFields o) ++ ['}']) :: fixPieces (q :: qs) from rfl]
    rw [← hq, hrest]
    rfl

/-! ## Round trip of the flat-object parser on serialized objects -/

theorem takeStrAux_spec :
    ∀ {k : List Char}, cleanStrP k → ∀ (acc rest : List Char),
    takeStrAux (k ++ '"' :: rest) acc = some (acc.reverse ++ k, rest)
  | [], _, acc, rest => by simp [takeStrAux]
  | c :: k', h, acc, rest => by
    have hc := h c (by simp)
    rw [List.cons_append, takeStrAux, if_neg hc.1, if_neg hc.2,
      takeStrAux_spec (fun d hd => h d (by simp [hd])) (c :: acc) rest]
    simp

theorem takeStr_spec {k : List Char} (h : cleanStrP k) (rest : List Char) :
    takeStr (serStr k ++ rest) = some (k, rest) := by
  rw [show serStr k ++ rest = '"' :: (k ++ '"' :: rest) by simp [serStr],
    takeStr, if_pos rfl, takeStrAux_spec h [] rest]
  simp

theorem parsePair_spec {p : List Char × List Char} (hk : cleanStrP p.1)
    (hv : cleanStrP p.2) (rest : List Char) :
    parsePair (serPair p ++ rest) = some (p, rest) := by
  obtain ⟨k, v⟩ := p
  have hassoc : serPair (k, v) ++ rest =
      serStr k ++ (':' :: (serStr v ++ rest)) := by
    simp [serPair]
  rw [parsePair, hassoc, takeStr_spec hk]
  simp [takeStr_spec hv]

theorem serPair_length_pos (p : List Char × List Char) :
    0 < (serPair p).length := by
  simp [serPair, serStr]

theorem serFields_ne_nil :
    ∀ {fs : List (List Char × List Char)}, fs ≠ [] → serFields fs ≠ []
  | [], hne, _ => absurd rfl hne
  | [p], _, h => by
    have hlen := serPair_length_pos p
    rw [show serFields [p] = serPair p from rfl] at h
    rw [h] at hlen
    simp at hlen
  | p :: p2 :: fs', _, h => by
    rw [show serFields (p :: p2 :: fs') =
      serPair p ++ ',' :: serFields (p2 :: fs') from rfl] at h
    simp at h

theorem parsePairsAux_spec :
    ∀ {fs : List (List Char × List Char)}, fs ≠ [] →
    (∀ p ∈ fs, cleanStrP p.1 ∧ cleanStrP p.2) →
    ∀ {rest : List Char}, rest.head? ≠ some ',' →
    ∀ {fuel : Nat}, (serFields fs).length ≤ fuel →
    parsePairsAux fuel (serFields fs ++ rest) = some (fs, rest)
  | [], hne, _, _, _, _, _ => absurd rfl hne
  | [p], hne, h, rest, hrest, fuel, hfuel => by
    obtain ⟨f, rfl⟩ : ∃ f, fuel = f + 1 := by
      rcases fuel with _ | f
      · refine absurd (List.length_eq_zero.mp (Nat.le_zero.mp hfuel))
          (serFields_ne_nil hne)
      · exact ⟨f, rfl⟩
    obtain ⟨hp1, hp2⟩ := h p (by simp)
    rw [parsePairsAux, show serFields [p] = serPair p from rfl,
      parsePair_spec hp1 hp2]
    simp only
    rw [if_neg hrest]
  | p :: p2 :: fs', hne, h, rest, hrest, fuel, hfuel => by
    obtain ⟨f, rfl⟩ : ∃ f, fuel = f + 1 := by
      rcases fuel with _ | f
      · refine absurd (List.length_eq_zero.mp (Nat.le_zero.mp hfuel))
          (serFields_ne_nil hne)
      · exact ⟨f, rfl⟩
    obtain ⟨hp1, hp2⟩ := h p (by simp)
    have hassoc : serFields (p :: p2 :: fs') ++ rest =
        serPair p ++ (',' :: (serFields (p2 :: fs') ++ rest)) := by
      rw [show serFields (p :: p2 :: fs') =
        serPair p ++ ',' :: serFields (p2 :: fs') from rfl]
      simp
    have hfuel' : (serFields (p2 :: fs')).length ≤ f := by
      rw [show serFields (p :: p2 :: fs') =
        serPair p ++ ',' :: serFields (p2 :: fs') from rfl] at hfuel
      have := serPair_length_pos p
      simp at hfuel
      omega
    have hrec := parsePairsAux_spec (show p2 :: fs' ≠ [] by simp)
      (fun q hq => h q (by simp [hq])) hrest hfuel'
    rw [parsePairsAux, hassoc, parsePair_spec hp1 hp2]
    simp [hrec]

theorem parseFlatObjL_serObj {o : List (List Char × List Char)}
    (h : ∀ p ∈ o, cleanStrP p.1 ∧ cleanStrP p.2) :
    parseFlatObjL (serObj o) = some o := by
  rcases ho : o with _ | ⟨p, ps⟩
  · rfl
  · rw [serObj, parseFlatObjL]
    simp only [List.head?_cons, List.tail_cons, if_pos rfl]
    have hne : serFields (p :: ps) ++ ['}'] ≠ ['}'] := by
      intro hh
      have := serFields_ne_nil (show p :: ps ≠ [] by simp)
      rcases hf : serFields (p :: ps) with _ | ⟨x, xs⟩
      · exact this hf
      · rw [hf] at hh
        have : (x :: xs ++ ['}']).length = (['}'] : List Char).length := by
          rw [hh]
        simp at this
    rw [if_neg hne,
      parsePairsAux_spec (by simp) (ho ▸ h) (by simp) (by simp)]
    simp

/-! ## The space/newline removal seen through the serialization -/

theorem strip_append (a b : List Char) :
    stripWsNl (a ++ b) = stripWsNl a ++ stripWsNl b := by
  simp [stripWsNl]

theorem strip_cons_keep {c : Char} (h1 : c ≠ '\n') (h2 : c ≠ ' ')
    (s : List Char) : stripWsNl (c :: s) = c :: stripWsNl s := by
  simp [stripWsNl, List.filter_cons, h1, h2]

theorem strip_serStr (s : List Char) :
    stripWsNl (serStr s) = serStr (stripWsNl s) := by
  rw [serStr, serStr, strip_cons_keep (by decide) (by decide), strip_append]
  rfl

theorem strip_serPair (p : List Char × List Char) :
    stripWsNl (serPair p) = serPair (stripWsNl p.1, stripWsNl p.2) := by
  rw [serPair, strip_append, strip_serStr,
    strip_cons_keep (by decide) (by decide), strip_serStr]
  rfl

theorem strip_serFields :
    ∀ fs : List (List Char × List Char),
    stripWsNl (serFields fs) =
      serFields (fs.map fun p => (stripWsNl p.1, stripWsNl p.2))
  | [] => rfl
  | [p] => by
    show stripWsNl (serPair p) = serPair (stripWsNl p.1, stripWsNl p.2)
    exact strip_serPair p
  | p :: p2 :: fs' => by
    show stripWsNl (serPair p ++ ',' :: serFields (p2 :: fs')) = _
    rw [strip_append, strip_serPair,
      strip_cons_keep (by decide) (by decide), strip_serFields (p2 :: fs')]
    rfl

theorem strip_serObj (o : List (List Char × List Char)) :
    stripWsNl (serObj o) = serObj (stripObjLC o) := by
  rw [serObj, serObj, strip_cons_keep (by decide) (by decide), strip_append,
    strip_serFields]
  rfl

theorem strip_serObjs :
    ∀ objs : List (List (List Char × List Char)),
    stripWsNl (serObjs objs) = serObjs (objs.map stripObjLC)
  | [] => rfl
  | [o] => by
    show stripWsNl (serObj o) = serObj (stripObjLC o)
    exact strip_serObj o
  | o :: o2 :: os => by
    show stripWsNl (serObj o ++ ',' :: serObjs (o2 :: os)) = _
    rw [strip_append, strip_serObj,
      strip_cons_keep (by decide) (by decide), strip_serObjs (o2 :: os)]
    rfl

theorem strip_arrSer (objs : List (List (List Char × List Char))) :
    stripWsNl (arrSer objs) = arrSer (objs.map stripObjLC) := by
  rw [arrSer, arrSer, strip_cons_keep (by decide) (by decide), strip_append,
    strip_serObjs]
  rfl

theorem map_ne_self_of_mem {α : Type} {f : α → α} {l : List α} {a : α}
    (ha : a ∈ l) (hfa : f a ≠ a) : l.map f ≠ l := by
  induction l with
  | nil => cases ha
  | cons b l ih =>
    intro h
    rw [List.map_cons] at h
    injection h with h1 h2
    rcases List.mem_cons.mp ha with rfl | ha'
    · exact hfa h1
    · exact ih ha' h2

theorem strip_ne_of_ws {v : List Char} (h : ∃ c ∈ v, c = ' ' ∨ c = '\n') :
    stripWsNl v ≠ v := by
  intro he
  obtain ⟨c, hc, hcw⟩ := h
  rw [stripWsNl] at he
  have := List.filter_eq_self.mp he c hc
  rcases hcw with rfl | rfl <;> simp at this

/-- C10: on a non-empty flat-object array listing - any whitespace
formatting of the compact serialization - the script's reconstruction
(remove newlines and spaces, drop the outer brackets, split on `"},"`,
re-append `"}"` to all but the last piece) yields exactly the serialized
objects with all spaces/newlines stripped from their keys and values, in
order, each parseable; when no string contains a space or newline (and no
value contains `"},"`) these are exactly the array's objects, and whenever
some value does contain a space or newline, the parsed objects differ from
the originals: that value is altered before parsing. -/
theorem c10_manifest_reconstruction
    {objs : List (List (List Char × List Char))} {t : List Char}
    (hne : objs ≠ [])
    (hclean : ∀ o ∈ objs, ∀ p ∈ o, cleanStrP p.1 ∧ cleanStrP p.2)
    (hbc : ∀ o ∈ objs, ∀ p ∈ o,
      hasBC (stripWsNl p.1) = false ∧ hasBC (stripWsNl p.2) = false)
    (ht : stripWsNl t = stripWsNl (arrSer objs)) :
    collectedPieces t = (objs.map stripObjLC).map serObj ∧
    (collectedPieces t).map parseFlatObjL = (objs.map stripObjLC).map some ∧
    ((∀ o ∈ objs, ∀ p ∈ o, noWs p.1 ∧ noWs p.2) →
      objs.map stripObjLC = objs) ∧
    ((∃ o ∈ objs, ∃ p ∈ o, ¬ noWs p.2) → objs.map stripObjLC ≠ objs) := by
  have hclean' : ∀ o' ∈ objs.map stripObjLC, ∀ p ∈ o',
      cleanStrP p.1 ∧ cleanStrP p.2 := by
    intro o' ho' p hp
    obtain ⟨o, ho, rfl⟩ := List.mem_map.mp ho'
    obtain ⟨q, hq, rfl⟩ := List.mem_map.mp hp
    obtain ⟨h1, h2⟩ := hclean o ho q hq
    exact ⟨fun c hc => h1 c (List.mem_of_mem_filter hc),
      fun c hc => h2 c (List.mem_of_mem_filter hc)⟩
  have hbc' : ∀ o' ∈ objs.map stripObjLC, hasBC (serObj o') = false := by
    intro o' ho'
    obtain ⟨o, ho, rfl⟩ := List.mem_map.mp ho'
    refine hasBC_serObj ?_
    intro p hp
    obtain ⟨q, hq, rfl⟩ := List.mem_map.mp hp
    exact hbc o ho q hq
  have hne' : objs.map stripObjLC ≠ [] := by simpa using hne
  have hpieces : collectedPieces t = (objs.map stripObjLC).map serObj := by
    rw [collectedPieces, ht, strip_arrSer]
    have hdrop : drop1dropLast (arrSer (objs.map stripObjLC)) =
        serObjs (objs.map stripObjLC) := by
      simp [arrSer, drop1dropLast]
    rw [hdrop]
    exact fixPieces_splitBC_serObjs hne' hbc'
  refine ⟨hpieces, ?_, ?_, ?_⟩
  · rw [hpieces, List.map_map]
    exact List.map_congr_left fun o' ho' =>
      parseFlatObjL_serObj (hclean' o' ho')
  · intro hnows
    have hobj : ∀ o ∈ objs, stripObjLC o = o := by
      intro o ho
      have hpair : ∀ p ∈ o,
          (fun p : List Char × List Char =>
            (stripWsNl p.1, stripWsNl p.2)) p = id p := by
        intro p hp
        obtain ⟨w1, w2⟩ := hnows o ho p hp
        have e1 : stripWsNl p.1 = p.1 := by
          rw [stripWsNl]
          refine List.filter_eq_self.mpr ?_
          intro c hc
          obtain ⟨d1, d2⟩ := w1 c hc
          simp [d1, d2]
        have e2 : stripWsNl p.2 = p.2 := by
          rw [stripWsNl]
          refine List.filter_eq_self.mpr ?_
          intro c hc
          obtain ⟨d1, d2⟩ := w2 c hc
          simp [d1, d2]
        simp [e1, e2]
      calc stripObjLC o = o.map id := List.map_congr_left hpair
        _ = o := List.map_id o
    calc objs.map stripObjLC = objs.map id := List.map_congr_left hobj
      _ = objs := List.map_id objs
  · rintro ⟨o, ho, p, hp, hpws⟩
    refine map_ne_self_of_mem ho ?_
    refine map_ne_self_of_mem hp ?_
    intro hpe
    have h2 : stripWsNl p.2 = p.2 := congrArg Prod.snd hpe
    refine strip_ne_of_ws ?_ h2
    rw [noWs] at hpws
    push_neg at hpws
    obtain ⟨c, hc, hcw⟩ := hpws
    rcases Classical.em (c = ' ') with h | h
    · exact ⟨c, hc, .inl h⟩
    · exact ⟨c, hc, .inr (hcw h)⟩

/-- Witness for C10 on a concrete two-object listing, pretty-printed with
spaces and a newline: reconstruction yields the two compact objects, both
parseable, and since no string holds a space or newline they are exactly
the array's objects. -/
theorem c10_manifest_reconstruction_witness :
    collectedPieces "[ \x7b\"d\":\"a\"\x7d,\n\x7b\"d\":\"b\"\x7d ]".data =
      ((([[(['d'], ['a'])], [(['d'], ['b'])]] :
        List (List (List Char × List Char))).map stripObjLC).map serObj) ∧
    (collectedPieces
        "[ \x7b\"d\":\"a\"\x7d,\n\x7b\"d\":\"b\"\x7d ]".data).map parseFlatObjL =
      ((([[(['d'], ['a'])], [(['d'], ['b'])]] :
        List (List (List Char × List Char))).map stripObjLC).map some) ∧
    ((∀ o ∈ ([[(['d'], ['a'])], [(['d'], ['b'])]] :
        List (List (List Char × List Char))), ∀ p ∈ o, noWs p.1 ∧ noWs p.2) →
      ([[(['d'], ['a'])], [(['d'], ['b'])]] :
        List (List (List Char × List Char))).map stripObjLC =
        [[(['d'], ['a'])], [(['d'], ['b'])]]) ∧
    ((∃ o ∈ ([[(['d'], ['a'])], [(['d'], ['b'])]] :
        List (List (List Char × List Char))), ∃ p ∈ o, ¬ noWs p.2) →
      ([[(['d'], ['a'])], [(['d'], ['b'])]] :
        List (List (List Char × List Char))).map stripObjLC ≠
        [[(['d'], ['a'])], [(['d'], ['b'])]]) :=
  @c10_manifest_reconstruction
    [[(['d'], ['a'])], [(['d'], ['b'])]]
    "[ \x7b\"d\":\"a\"\x7d,\n\x7b\"d\":\"b\"\x7d ]".data
    (by decide) (by decide) (by decide) (by decide)

end DockerCleanUp
